import Mathlib

/-!
Verification of the diff-context extraction core of the repository.

The repository carries two divergent implementations of
`get_patch_context(patch, line_no, ctx=3)`:
  * `utils.py` (identical copy in `jibinbot_review.py`), and
  * `formatters.py`.
Both are shallowly embedded below, line by line.  Fallible Python
operations (`int(...)` raising `ValueError`, `line[0]` raising
`IndexError` on an empty string, `list[2]` raising `IndexError`) are
modelled with `Option`: a `none` result of the embedded function means
the Python function raises an uncaught exception on that input.

The spec additionally describes a `resolvePosition` function that has no
implementation under the sources; it is modelled from the spec text and
marked as such.

Strings are modelled at the `List Char` level (`String.data`) so that
every definition evaluates by kernel reduction.  Python `str.splitlines`
is modelled for newline-separated input (the inputs in question contain
only `\n` separators), and `str.split()` (no argument) is modelled as
splitting on runs of spaces, the only whitespace occurring in hunk
headers.
-/

namespace DiffCore

/-- Marker that starts a hunk header line in a unified diff. -/
def hdrPre : String := "@@ "

/-- Newline separator used when joining the accumulated context lines. -/
def nlS : String := "\n"

/-- Python `s.startswith(w)`: `w.data` is a prefix of `s.data`. -/
def startsW (s w : String) : Bool := List.isPrefixOf w.data s.data

/-- Split a character list at every occurrence of `sep`, keeping empty parts
(the behaviour of Python `str.split(sep)` with an explicit separator). -/
def splitOnChar (sep : Char) : List Char → List (List Char)
  | [] => [[]]
  | c :: rest =>
    if c = sep then [] :: splitOnChar sep rest
    else
      match splitOnChar sep rest with
      | [] => [[c]]
      | p :: ps => (c :: p) :: ps

/-- Python `str.splitlines()` for `\n`-separated text: split at every
newline and drop the trailing empty piece produced by a final newline. -/
def splitlines (s : String) : List String :=
  let ps := splitOnChar (Char.ofNat 10) s.data
  let ps2 := if ps.getLast? = some [] then ps.dropLast else ps
  ps2.map (fun l => String.mk l)

/-- Python `str.split()` with no argument, for space-separated input:
split on spaces and drop empty tokens. -/
def pySplitWs (s : String) : List (List Char) :=
  (splitOnChar (Char.ofNat 32) s.data).filter (fun p => !p.isEmpty)

/-- Value of a non-empty all-digit character list, `none` otherwise. -/
def digitsVal : List Char → Option Nat
  | [] => none
  | cs =>
    if cs.all (fun c => c.isDigit) then
      some (cs.foldl (fun a c => a * 10 + (c.toNat - 48)) 0)
    else none

/-- Python `int(str)` on sign-plus-digits input; `none` models `ValueError`. -/
def pyIntL : List Char → Option Int
  | '+' :: rest => (digitsVal rest).map (fun n => (n : Int))
  | '-' :: rest => (digitsVal rest).map (fun n => -(n : Int))
  | cs => (digitsVal cs).map (fun n => (n : Int))

/-- Header parsing of `utils.get_patch_context` (and its identical copy in
`jibinbot_review.py`): `int(line.split()[2].split(',')[0][1:]) - 1`.
`none` models the `IndexError` (fewer than three tokens) or `ValueError`
(non-numeric text) the expression raises. -/
def parseHeaderUtils (line : String) : Option Int :=
  match (pySplitWs line)[2]? with
  | none => none
  | some tok =>
    match pyIntL (((splitOnChar (Char.ofNat 44) tok).headD []).drop 1) with
    | none => none
    | some n => some (n - 1)

/-- Match a literal character sequence at the head of the input and return
the remainder, as a regex literal does. -/
def lit (w : String) (cs : List Char) : Option (List Char) :=
  if List.isPrefixOf w.data cs then some (cs.drop w.data.length) else none

/-- Literal `@@ -` opening a hunk header. -/
def dashMark : String := "@@ -"

/-- Literal comma separating a range start from its count. -/
def commaMark : String := ","

/-- Literal ` +` separating the old range from the new range. -/
def plusMark : String := " +"

/-- Literal ` @@` closing a hunk header. -/
def closeMark : String := " @@"

/-- Match one or more digits at the head of the input, returning their value
and the remainder (regex `\d+`). -/
def digits1 (cs : List Char) : Option (Nat × List Char) :=
  match digitsVal (cs.takeWhile (fun c => c.isDigit)) with
  | none => none
  | some n => some (n, cs.dropWhile (fun c => c.isDigit))

/-- Header parsing of `formatters.get_patch_context`: the anchored match
`re.match(r'@@ -\d+,\d+ \+(\d+),\d+ @@', line)` returning group 1
(`newStart`), `none` when the regex does not match. -/
def parseHeaderFmt (line : String) : Option Int :=
  (lit dashMark line.data).bind fun r1 =>
  (digits1 r1).bind fun p1 =>
  (lit commaMark p1.2).bind fun r2 =>
  (digits1 r2).bind fun p2 =>
  (lit plusMark p2.2).bind fun r3 =>
  (digits1 r3).bind fun p3 =>
  (lit commaMark p3.2).bind fun r4 =>
  (digits1 r4).bind fun p4 =>
  (lit closeMark p4.2).map fun _ => (p3.1 : Int)

/-- State of the scanning loop of both `get_patch_context` variants:
the tracked new-file cursor (`None` before the first hunk header) and the
accumulated output lines. -/
structure ScanSt where
  fileLine : Option Int
  acc : List String
deriving DecidableEq, Repr

/-- Outcome of one loop iteration: continue with a new state, `break` with
the final accumulator, or raise an uncaught exception. -/
inductive StepOut where
  | next (st : ScanSt)
  | halt (acc : List String)
  | err
deriving DecidableEq, Repr

/-- One iteration of the loop of `utils.get_patch_context` (also
`jibinbot_review.get_patch_context`): on a header line, parse
`newStart - 1` and reset the accumulator to the header alone; on a body
line with active cursor, read `line[0]`, advance the cursor except for
deletions, append the line when `abs(file_line - line_no) <= ctx`, and
break once `file_line > line_no + ctx`. -/
def utilsStep (lineNo ctx : Int) (st : ScanSt) (line : String) : StepOut :=
  if startsW line hdrPre then
    match parseHeaderUtils line with
    | none => .err
    | some s => .next ⟨some s, [line]⟩
  else
    match st.fileLine with
    | none => .next st
    | some fl =>
      match line.data.head? with
      | none => .err
      | some c =>
        if c = ' ' ∨ c = '+' ∨ c = '-' then
          let fl2 := if c ≠ '-' then fl + 1 else fl
          let acc2 := if |fl2 - lineNo| ≤ ctx then st.acc ++ [line] else st.acc
          if fl2 > lineNo + ctx then .halt acc2
          else .next ⟨some fl2, acc2⟩
        else .next st

/-- One iteration of the loop of `formatters.get_patch_context`: a header
line is always appended and the cursor becomes the regex result (possibly
`None`); a body line with active cursor is appended when the window test
of its kind succeeds, the cursor advances for context/addition lines, and
the loop breaks once the advanced cursor passes the window on a line that
is neither a deletion nor an addition. -/
def fmtStep (lineNo ctx : Int) (st : ScanSt) (line : String) : StepOut :=
  if startsW line hdrPre then
    .next ⟨parseHeaderFmt line, st.acc ++ [line]⟩
  else
    match st.fileLine with
    | none => .next st
    | some fl =>
      match line.data.head? with
      | none => .err
      | some c =>
        let acc2 :=
          if ((c = ' ' ∨ c = '+') ∧ |fl - lineNo| ≤ ctx) ∨
             (c = '-' ∧ (lineNo - ctx ≤ fl ∧ fl ≤ lineNo + ctx)) then
            st.acc ++ [line]
          else st.acc
        let fl2 := if c = ' ' ∨ c = '+' then fl + 1 else fl
        if fl2 > lineNo + ctx ∧ ¬(c = '-' ∨ c = '+') then .halt acc2
        else .next ⟨some fl2, acc2⟩

/-- Run a loop body over the lines of the patch, threading the scan state;
`halt` models `break`, `err` models an uncaught exception. -/
def scanAux (step : ScanSt → String → StepOut) : List String → ScanSt → Option (List String)
  | [], st => some st.acc
  | l :: rest, st =>
    match step st l with
    | .next st2 => scanAux step rest st2
    | .halt a => some a
    | .err => none

/-- The line list accumulated by `utils.get_patch_context`. -/
def utilsScan (patch : String) (lineNo ctx : Int) : Option (List String) :=
  scanAux (utilsStep lineNo ctx) (splitlines patch) ⟨none, []⟩

/-- The line list accumulated by `formatters.get_patch_context`. -/
def fmtScan (patch : String) (lineNo ctx : Int) : Option (List String) :=
  scanAux (fmtStep lineNo ctx) (splitlines patch) ⟨none, []⟩

/-- Python `'\n'.join(lines)`. -/
def joinNl : List String → String
  | [] => ""
  | [x] => x
  | x :: xs => x ++ nlS ++ joinNl xs

end DiffCore

namespace Utils

/-- The function `get_patch_context` of `utils.py` (an identical copy lives
in `jibinbot_review.py`); `none` models an uncaught Python exception. -/
def get_patch_context (patch : String) (line_no ctx : Int) : Option String :=
  (DiffCore.utilsScan patch line_no ctx).map DiffCore.joinNl

end Utils

namespace Formatters

/-- The function `get_patch_context` of `formatters.py`; `none` models an
uncaught Python exception. -/
def get_patch_context (patch : String) (line_no ctx : Int) : Option String :=
  (DiffCore.fmtScan patch line_no ctx).map DiffCore.joinNl

end Formatters

namespace DiffCore

/-- Consume the optional `,count` part of a hunk range (regex `(,\d+)?`):
when a comma followed by at least one digit is present it is consumed,
otherwise the input is left unchanged. -/
def optComma (cs : List Char) : List Char :=
  match cs with
  | ',' :: rest =>
    if (rest.takeWhile (fun c => c.isDigit)).isEmpty then cs
    else rest.dropWhile (fun c => c.isDigit)
  | _ => cs

/-- Modelled from the spec: the hunk-header parser of section 4.1, which is
absent from the sources as a standalone unit.  It recognises
`@@ -oldStart[,oldCount] +newStart[,newCount] @@` with trailing text
allowed, returns `newStart`, and returns `none` on a malformed header. -/
def parseHeaderSpec (line : String) : Option Int :=
  (lit dashMark line.data).bind fun r1 =>
  (digits1 r1).bind fun p1 =>
  (lit plusMark (optComma p1.2)).bind fun r2 =>
  (digits1 r2).bind fun p2 =>
  (lit closeMark (optComma p2.2)).map fun _ => (p2.1 : Int)

/-- Modelled from the spec: the scanning loop of `resolvePosition`
(section 4.3), absent from the sources.  `t` is the target line; the
state is the new-file cursor (`none` before the first header and after a
malformed header) and the 0-based position counter over body lines. -/
def resolveGo (t : Int) : List String → Option Int → Nat → Option Nat
  | [], _, _ => none
  | l :: rest, cur, pos =>
    if startsW l hdrPre then
      match parseHeaderSpec l with
      | some ns => resolveGo t rest (some (ns - 1)) pos
      | none => resolveGo t rest none pos
    else
      match cur with
      | none => resolveGo t rest none pos
      | some fl =>
        if l.data.head? = some ' ' ∨ l.data.head? = some '+' then
          if fl + 1 = t then some pos else resolveGo t rest (some (fl + 1)) (pos + 1)
        else if l.data.head? = some '-' then resolveGo t rest (some fl) (pos + 1)
        else resolveGo t rest (some fl) pos

/-- Modelled from the spec: `resolvePosition(patch, targetLine)` of
sections 4.3 and 6, absent from the sources.  Returns the 0-based
position of the target new-file line within the stream of hunk body
lines, or `none` when the line is not covered by any hunk. -/
def resolvePosition (patch : String) (targetLine : Int) : Option Nat :=
  resolveGo targetLine (splitlines patch) none 0

/-- Reference stream of one hunk body, from the spec data model: each
context/addition line carries its new-file line number (consecutively
from `newStart`), each deletion line carries no number, and lines that
are not diff lines are absent. -/
def hunkStream (ns : Int) : List String → List (String × Option Int)
  | [] => []
  | l :: rest =>
    if l.data.head? = some ' ' ∨ l.data.head? = some '+' then
      (l, some ns) :: hunkStream (ns + 1) rest
    else if l.data.head? = some '-' then (l, none) :: hunkStream ns rest
    else hunkStream ns rest

/-- Reference hunk structure of a patch, from the spec data model: every
header line opens a hunk whose body runs to the next header; the header
parse result is kept (`none` marks a malformed hunk, treated as absent);
lines before the first header belong to no hunk. -/
def hunksOf : List String → List (Option Int × List String)
  | [] => []
  | l :: rest =>
    if startsW l hdrPre then
      (parseHeaderSpec l, rest.takeWhile (fun x => !startsW x hdrPre)) ::
        hunksOf (rest.dropWhile (fun x => !startsW x hdrPre))
    else hunksOf rest
termination_by ls => ls.length
decreasing_by
  · exact Nat.lt_succ_of_le (List.dropWhile_sublist _).length_le
  · exact Nat.lt_succ_of_le (Nat.le_refl _)

/-- Flattened reference stream of all hunk bodies of a patch, in document
order, malformed hunks absent. -/
def refStream : List (Option Int × List String) → List (String × Option Int)
  | [] => []
  | (some ns, body) :: rest => hunkStream ns body ++ refStream rest
  | (none, _) :: rest => refStream rest

/-- Index of the first list element satisfying the test, if any. -/
def findIdxO (p : α → Bool) : List α → Option Nat
  | [] => none
  | a :: l => if p a then some 0 else (findIdxO p l).map (fun i => i + 1)

/-- Test whether a stream entry carries the target new-file line number. -/
def tgtHit (t : Int) : String × Option Int → Bool := fun e => decide (e.2 = some t)

/-- Reference position of the target line: its 0-based index within the
flattened stream of all hunk body lines, `none` when no context or
addition line of any hunk carries the target new-file line number. -/
def refPosition (patch : String) (t : Int) : Option Nat :=
  findIdxO (tgtHit t) (refStream (hunksOf (splitlines patch)))

/-- Safety predicate on a split patch: every header line parses under the
utils header expression, and every non-header line occurring once a
header has been seen is non-empty.  `seen` records whether a header has
already been passed (before that, empty lines are skipped harmlessly
because the cursor is still `None`). -/
def safeLines : List String → Bool → Bool
  | [], _ => true
  | l :: rest, seen =>
    if startsW l hdrPre then (parseHeaderUtils l).isSome && safeLines rest true
    else (!seen || (l.data.head?).isSome) && safeLines rest seen

end DiffCore

namespace DiffCore

/-- Count of context/addition lines in a hunk body (the lines that advance
the new-file cursor). -/
def ctxAddCount (L : List String) : Nat :=
  L.countP (fun l => decide (l.data.head? = some ' ' ∨ l.data.head? = some '+'))

/-- Patch of spec scenario 2: one hunk, a deletion followed by an addition. -/
def pc1 : String := "@@ -5,2 +5,2 @@\n-old\n+new"

/-- Patch with one two-line hunk at lines 1-2, used for the out-of-window
behaviour. -/
def pc2 : String := "@@ -1,2 +1,2 @@\n a\n b"

/-- Hunk header of `pc2`. -/
def hdr12 : String := "@@ -1,2 +1,2 @@"

/-- Patch with two hunks: a matched line in the first hunk, a far-away
second hunk. -/
def pc3 : String := "@@ -1,1 +1,1 @@\n x\n@@ -10,1 +10,1 @@\n y"

/-- Second hunk header of `pc3`. -/
def h3b : String := "@@ -10,1 +10,1 @@"

/-- Output of the formatters variant on `pc3` at target 1: first header,
its matched line, and the second header. -/
def out3f : String := "@@ -1,1 +1,1 @@\n x\n@@ -10,1 +10,1 @@"

/-- The matched body line of the first hunk of `pc3`. -/
def lnX : String := " x"

/-- Second body line of `pc6a`/`pc6b`. -/
def lnY : String := " y"

/-- Patch whose only hunk header is malformed. -/
def pc4 : String := "@@ garbage @@\n+x"

/-- The malformed header line of `pc4`. -/
def h4 : String := "@@ garbage @@"

/-- Patch with a deletion between a context line and an addition. -/
def pc5 : String := "@@ -1,2 +1,2 @@\n a\n-del\n+b"

/-- Output of the formatters variant on `pc5` at target 1 with ctx 0. -/
def out5f : String := "@@ -1,2 +1,2 @@\n a"

/-- Patch for the general deletion-window statement: context line,
deletion, context line. -/
def pc5g : String := "@@ -1,3 +1,3 @@\n a\n-del\n b"

/-- Header line of `pc5g`. -/
def h13 : String := "@@ -1,3 +1,3 @@"

/-- The deletion line of `pc5` and `pc5g`. -/
def delLine : String := "-del"

/-- First context body line of `pc5`/`pc5g`. -/
def lnA : String := " a"

/-- Last context body line of `pc2`/`pc5g`. -/
def lnB : String := " b"

/-- Two-body-line patch whose header omits the range counts. -/
def pc6a : String := "@@ -5 +5 @@\n x\n y"

/-- The `pc6a` patch with explicit counts in the header. -/
def pc6b : String := "@@ -5,2 +5,2 @@\n x\n y"

/-- Header of `pc6a`. -/
def h6a : String := "@@ -5 +5 @@"

/-- Header of `pc6b`. -/
def h6b : String := "@@ -5,2 +5,2 @@"

/-- One-body-line patch with an omitted-count header. -/
def pc6s : String := "@@ -5 +5 @@\n x"

/-- The `pc6s` patch with explicit counts; also its own expected full
output at target 5. -/
def pc6e : String := "@@ -5,1 +5,1 @@\n x"

/-- Patch of spec scenario 1. -/
def pc8 : String := "@@ -1,3 +1,4 @@\n line1\n+line2\n line3\n line4"

/-- Expected context of spec scenario 1 at target 2 with ctx 1. -/
def out8 : String := "@@ -1,3 +1,4 @@\n line1\n+line2\n line3"

/-- Patch with an empty line inside a hunk body. -/
def pc10 : String := "@@ -1,1 +1,1 @@\n\n x"

/-- A small well-formed patch. -/
def pcW : String := "@@ -1,2 +1,2 @@\n a\n+b"

/-- The empty string. -/
def emptyS : String := ""

/-- A deletion line used to witness the cursor-step facts. -/
def lnDX : String := "-x"

end DiffCore


namespace DiffCore

theorem scanAux_nil (step : ScanSt → String → StepOut) (st : ScanSt) :
    scanAux step [] st = some st.acc := rfl

theorem scanAux_cons_next (step : ScanSt → String → StepOut) (l : String)
    (rest : List String) (st st2 : ScanSt) (h : step st l = .next st2) :
    scanAux step (l :: rest) st = scanAux step rest st2 := by
  simp [scanAux, h]

theorem scanAux_cons_halt (step : ScanSt → String → StepOut) (l : String)
    (rest : List String) (st : ScanSt) (a : List String) (h : step st l = .halt a) :
    scanAux step (l :: rest) st = some a := by
  simp [scanAux, h]

theorem scanAux_cons_err (step : ScanSt → String → StepOut) (l : String)
    (rest : List String) (st : ScanSt) (h : step st l = .err) :
    scanAux step (l :: rest) st = none := by
  simp [scanAux, h]

theorem utilsStep_hdr (t c : Int) (st : ScanSt) (l : String) (s : Int)
    (h0 : startsW l hdrPre = true) (h1 : parseHeaderUtils l = some s) :
    utilsStep t c st l = .next ⟨some s, [l]⟩ := by
  simp [utilsStep, h0, h1]

theorem utilsStep_hdrErr (t c : Int) (st : ScanSt) (l : String)
    (h0 : startsW l hdrPre = true) (h1 : parseHeaderUtils l = none) :
    utilsStep t c st l = .err := by
  simp [utilsStep, h0, h1]

theorem utilsStep_skip (t c : Int) (acc : List String) (l : String)
    (h0 : startsW l hdrPre = false) :
    utilsStep t c ⟨none, acc⟩ l = .next ⟨none, acc⟩ := by
  simp [utilsStep, h0]

theorem utilsStep_ctxadd (t c fl : Int) (acc : List String) (l : String) (ch : Char)
    (h0 : startsW l hdrPre = false) (h1 : l.data.head? = some ch)
    (h2 : ch = ' ' ∨ ch = '+') :
    utilsStep t c ⟨some fl, acc⟩ l =
      (if fl + 1 > t + c then
        .halt (if |fl + 1 - t| ≤ c then acc ++ [l] else acc)
      else .next ⟨some (fl + 1), if |fl + 1 - t| ≤ c then acc ++ [l] else acc⟩) := by
  rcases h2 with h2 | h2 <;> subst h2 <;>
    simp [utilsStep, h0, h1, (by decide : ¬ ((' ' : Char) = '-')),
      (by decide : ¬ (('+' : Char) = '-'))]

theorem utilsStep_del (t c fl : Int) (acc : List String) (l : String)
    (h0 : startsW l hdrPre = false) (h1 : l.data.head? = some '-') :
    utilsStep t c ⟨some fl, acc⟩ l =
      (if fl > t + c then
        .halt (if |fl - t| ≤ c then acc ++ [l] else acc)
      else .next ⟨some fl, if |fl - t| ≤ c then acc ++ [l] else acc⟩) := by
  simp [utilsStep, h0, h1]

theorem fmtStep_hdr (t c : Int) (st : ScanSt) (l : String)
    (h0 : startsW l hdrPre = true) :
    fmtStep t c st l = .next ⟨parseHeaderFmt l, st.acc ++ [l]⟩ := by
  simp [fmtStep, h0]

theorem fmtStep_skip (t c : Int) (acc : List String) (l : String)
    (h0 : startsW l hdrPre = false) :
    fmtStep t c ⟨none, acc⟩ l = .next ⟨none, acc⟩ := by
  simp [fmtStep, h0]

theorem fmtStep_ctx (t c fl : Int) (acc : List String) (l : String)
    (h0 : startsW l hdrPre = false) (h1 : l.data.head? = some ' ') :
    fmtStep t c ⟨some fl, acc⟩ l =
      (if fl + 1 > t + c then
        .halt (if |fl - t| ≤ c then acc ++ [l] else acc)
      else .next ⟨some (fl + 1), if |fl - t| ≤ c then acc ++ [l] else acc⟩) := by
  simp [fmtStep, h0, h1, (by decide : ¬ ((' ' : Char) = '-')),
    (by decide : ¬ ((' ' : Char) = '+'))]

theorem fmtStep_add (t c fl : Int) (acc : List String) (l : String)
    (h0 : startsW l hdrPre = false) (h1 : l.data.head? = some '+') :
    fmtStep t c ⟨some fl, acc⟩ l =
      .next ⟨some (fl + 1), if |fl - t| ≤ c then acc ++ [l] else acc⟩ := by
  simp [fmtStep, h0, h1, (by decide : ¬ (('+' : Char) = '-')),
    (by decide : ¬ (('+' : Char) = ' '))]

theorem fmtStep_del (t c fl : Int) (acc : List String) (l : String)
    (h0 : startsW l hdrPre = false) (h1 : l.data.head? = some '-') :
    fmtStep t c ⟨some fl, acc⟩ l =
      .next ⟨some fl, if t - c ≤ fl ∧ fl ≤ t + c then acc ++ [l] else acc⟩ := by
  simp [fmtStep, h0, h1, (by decide : ¬ (('-' : Char) = ' ')),
    (by decide : ¬ (('-' : Char) = '+'))]

end DiffCore

namespace DiffCore

theorem fmtStep_other (t c fl : Int) (acc : List String) (l : String) (ch : Char)
    (h0 : startsW l hdrPre = false) (h1 : l.data.head? = some ch)
    (hsp : ¬ ch = ' ') (hpl : ¬ ch = '+') (hmn : ¬ ch = '-') :
    fmtStep t c ⟨some fl, acc⟩ l =
      (if fl > t + c then .halt acc else .next ⟨some fl, acc⟩) := by
  simp [fmtStep, h0, h1, hsp, hpl, hmn]

theorem utilsScan_acc (t c : Int) :
    ∀ (L : List String), (∀ l ∈ L, startsW l hdrPre = false) →
    ∀ (fl : Option Int) (acc : List String),
      scanAux (utilsStep t c) L ⟨fl, acc⟩ =
        (scanAux (utilsStep t c) L ⟨fl, []⟩).map (fun r => acc ++ r) := by
  intro L
  induction L with
  | nil => intro _ fl acc; simp [scanAux]
  | cons l L2 ih =>
    intro hL fl acc
    have hl : startsW l hdrPre = false := hL l (List.mem_cons_self l L2)
    have hL2 : ∀ x ∈ L2, startsW x hdrPre = false :=
      fun x hx => hL x (List.mem_cons_of_mem l hx)
    cases fl with
    | none =>
      rw [scanAux_cons_next _ _ _ _ _ (utilsStep_skip t c acc l hl),
          scanAux_cons_next _ _ _ _ _ (utilsStep_skip t c [] l hl)]
      exact ih hL2 none acc
    | some v =>
      cases hh : l.data.head? with
      | none =>
        have e1 : utilsStep t c ⟨some v, acc⟩ l = .err := by simp [utilsStep, hl, hh]
        have e2 : utilsStep t c ⟨some v, []⟩ l = .err := by simp [utilsStep, hl, hh]
        rw [scanAux_cons_err _ _ _ _ e1, scanAux_cons_err _ _ _ _ e2]; rfl
      | some ch =>
        by_cases hset : ch = ' ' ∨ ch = '+' ∨ ch = '-'
        · have hca : (ch = ' ' ∨ ch = '+') ∨ ch = '-' := by tauto
          rcases hca with hca | hca
          · simp only [scanAux, utilsStep_ctxadd t c v acc l ch hl hh hca,
              utilsStep_ctxadd t c v [] l ch hl hh hca, List.nil_append]
            split_ifs with hB hw hw
            · simp
            · simp
            · (try dsimp only); rw [ih hL2 (some (v + 1)) (acc ++ [l]), ih hL2 (some (v + 1)) [l]]
              cases scanAux (utilsStep t c) L2 ⟨some (v + 1), []⟩ <;> simp
            · (try dsimp only); rw [ih hL2 (some (v + 1)) acc]
          · subst hca
            simp only [scanAux, utilsStep_del t c v acc l hl hh,
              utilsStep_del t c v [] l hl hh, List.nil_append]
            split_ifs with hB hw hw
            · simp
            · simp
            · (try dsimp only); rw [ih hL2 (some v) (acc ++ [l]), ih hL2 (some v) [l]]
              cases scanAux (utilsStep t c) L2 ⟨some v, []⟩ <;> simp
            · (try dsimp only); rw [ih hL2 (some v) acc]
        · have e1 : utilsStep t c ⟨some v, acc⟩ l = .next ⟨some v, acc⟩ := by
            simp [utilsStep, hl, hh, hset]
          have e2 : utilsStep t c ⟨some v, []⟩ l = .next ⟨some v, []⟩ := by
            simp [utilsStep, hl, hh, hset]
          rw [scanAux_cons_next _ _ _ _ _ e1, scanAux_cons_next _ _ _ _ _ e2]
          exact ih hL2 (some v) acc

theorem fmtScan_acc (t c : Int) :
    ∀ (L : List String), (∀ l ∈ L, startsW l hdrPre = false) →
    ∀ (fl : Option Int) (acc : List String),
      scanAux (fmtStep t c) L ⟨fl, acc⟩ =
        (scanAux (fmtStep t c) L ⟨fl, []⟩).map (fun r => acc ++ r) := by
  intro L
  induction L with
  | nil => intro _ fl acc; simp [scanAux]
  | cons l L2 ih =>
    intro hL fl acc
    have hl : startsW l hdrPre = false := hL l (List.mem_cons_self l L2)
    have hL2 : ∀ x ∈ L2, startsW x hdrPre = false :=
      fun x hx => hL x (List.mem_cons_of_mem l hx)
    cases fl with
    | none =>
      rw [scanAux_cons_next _ _ _ _ _ (fmtStep_skip t c acc l hl),
          scanAux_cons_next _ _ _ _ _ (fmtStep_skip t c [] l hl)]
      exact ih hL2 none acc
    | some v =>
      cases hh : l.data.head? with
      | none =>
        have e1 : fmtStep t c ⟨some v, acc⟩ l = .err := by simp [fmtStep, hl, hh]
        have e2 : fmtStep t c ⟨some v, []⟩ l = .err := by simp [fmtStep, hl, hh]
        rw [scanAux_cons_err _ _ _ _ e1, scanAux_cons_err _ _ _ _ e2]; rfl
      | some ch =>
        by_cases hsp : ch = ' '
        · subst hsp
          simp only [scanAux, fmtStep_ctx t c v acc l hl hh,
            fmtStep_ctx t c v [] l hl hh, List.nil_append]
          split_ifs with hB hw hw
          · simp
          · simp
          · (try dsimp only); rw [ih hL2 (some (v + 1)) (acc ++ [l]), ih hL2 (some (v + 1)) [l]]
            cases scanAux (fmtStep t c) L2 ⟨some (v + 1), []⟩ <;> simp
          · (try dsimp only); rw [ih hL2 (some (v + 1)) acc]
        · by_cases hpl : ch = '+'
          · subst hpl
            simp only [scanAux, fmtStep_add t c v acc l hl hh,
              fmtStep_add t c v [] l hl hh, List.nil_append]
            split_ifs with hw
            · rw [ih hL2 (some (v + 1)) (acc ++ [l]), ih hL2 (some (v + 1)) [l]]
              cases scanAux (fmtStep t c) L2 ⟨some (v + 1), []⟩ <;> simp
            · rw [ih hL2 (some (v + 1)) acc]
          · by_cases hmn : ch = '-'
            · subst hmn
              simp only [scanAux, fmtStep_del t c v acc l hl hh,
                fmtStep_del t c v [] l hl hh, List.nil_append]
              split_ifs with hw
              · rw [ih hL2 (some v) (acc ++ [l]), ih hL2 (some v) [l]]
                cases scanAux (fmtStep t c) L2 ⟨some v, []⟩ <;> simp
              · rw [ih hL2 (some v) acc]
            · simp only [scanAux, fmtStep_other t c v acc l ch hl hh hsp hpl hmn,
                fmtStep_other t c v [] l ch hl hh hsp hpl hmn]
              split_ifs with hB
              · simp
              · dsimp only; exact ih hL2 (some v) acc

end DiffCore

/-- C8: on the patch `@@ -1,3 +1,4 @@` with body ` line1`, `+line2`,
` line3`, ` line4`, both `get_patch_context` variants at target line 2
with ctx 1 return exactly the header plus ` line1`, `+line2`, ` line3`,
joined by newlines (` line4` excluded). -/
theorem C8_concrete_context :
    Utils.get_patch_context DiffCore.pc8 2 1 = some DiffCore.out8 ∧
    Formatters.get_patch_context DiffCore.pc8 2 1 = some DiffCore.out8 := by
  decide

/-- C3 counterexample: the utils variant resets its accumulator on every
hunk header, so on a two-hunk patch whose first hunk contains the matched
line ` x` (target 1, ctx 3) the output is only the second header — the
matched body line of the earlier hunk is not retained, contradicting the
claim. -/
theorem C3_counterexample :
    Utils.get_patch_context DiffCore.pc3 1 3 = some DiffCore.h3b ∧
    ¬ DiffCore.lnX ∈ (DiffCore.utilsScan DiffCore.pc3 1 3).getD [] := by
  decide

/-- C3 amended: the formatters variant accumulates across hunks — on the
same two-hunk patch it keeps the first header, the matched line ` x`,
and the later header; matched body lines of an earlier hunk survive a
later hunk header there, while the utils variant keeps only the last
scanned hunk. -/
theorem C3_fmt_retains_across_hunks :
    Formatters.get_patch_context DiffCore.pc3 1 3 = some DiffCore.out3f ∧
    DiffCore.lnX ∈ (DiffCore.fmtScan DiffCore.pc3 1 3).getD [] := by
  decide

/-- C4 counterexample: on the malformed-header patch `@@ garbage @@` with
body `+x`, the utils variant raises `ValueError` (modelled `none`) instead
of skipping, and the formatters variant returns the malformed header line
itself, not the empty string. -/
theorem C4_counterexample :
    Utils.get_patch_context DiffCore.pc4 1 3 = none ∧
    Formatters.get_patch_context DiffCore.pc4 1 3 = some DiffCore.h4 ∧
    ¬ Formatters.get_patch_context DiffCore.pc4 1 3 = some DiffCore.emptyS := by
  decide

/-- C4 amended: for every target line and ctx, the formatters variant
skips the body of the malformed hunk without raising and without stale
cursor state, but emits the malformed header line itself (never the empty
string), while the utils variant raises `ValueError` on the malformed
header. -/
theorem C4_malformed_header (n c : Int) :
    Formatters.get_patch_context DiffCore.pc4 n c = some DiffCore.h4 ∧
    Utils.get_patch_context DiffCore.pc4 n c = none :=
  ⟨rfl, rfl⟩

/-- C2 counterexample: with the target line (999) far outside the only
hunk, both variants return the hunk header line, not the empty string
required by the claim. -/
theorem C2_counterexample :
    Utils.get_patch_context DiffCore.pc2 999 3 = some DiffCore.hdr12 ∧
    Formatters.get_patch_context DiffCore.pc2 999 3 = some DiffCore.hdr12 ∧
    ¬ Utils.get_patch_context DiffCore.pc2 999 3 = some DiffCore.emptyS := by
  decide

/-- C5 counterexample: on `@@ -1,2 +1,2 @@` with body ` a`, `-del`, `+b`,
target 1 and ctx 0, the most recently consumed context line ` a` has
new-file number 1, inside the window [1,1], so the claim requires `-del`
to be included; the formatters variant excludes it (its deletion test
uses the cursor already advanced past the consumed line), while the utils
variant includes it. -/
theorem C5_counterexample :
    Formatters.get_patch_context DiffCore.pc5 1 0 = some DiffCore.out5f ∧
    ¬ DiffCore.delLine ∈ (DiffCore.fmtScan DiffCore.pc5 1 0).getD [] ∧
    DiffCore.delLine ∈ (DiffCore.utilsScan DiffCore.pc5 1 0).getD [] := by
  decide

/-- C6 counterexample: the formatters variant treats the omitted-count
header `@@ -5 +5 @@` as malformed — its body line is dropped and only the
header is returned — whereas the equivalent explicit-count header
`@@ -5,1 +5,1 @@` yields header plus body line, so omitted-count hunks
are not tracked as the claim states. -/
theorem C6_counterexample :
    Formatters.get_patch_context DiffCore.pc6s 5 3 = some DiffCore.h6a ∧
    Formatters.get_patch_context DiffCore.pc6e 5 3 = some DiffCore.pc6e := by
  decide

/-- C7 counterexample: with an empty patch and the non-positive target
line 0, both variants silently return the normal value `""` instead of
failing fast with an error. -/
theorem C7_counterexample :
    Utils.get_patch_context DiffCore.emptyS 0 3 = some DiffCore.emptyS ∧
    Formatters.get_patch_context DiffCore.emptyS 0 3 = some DiffCore.emptyS := by
  decide

/-- C6 amended: the utils variant's header parsing accepts omitted counts —
for every target and ctx its outputs on `@@ -5 +5 @@` and on the
equivalent explicit-count header agree on everything but the header line
itself — while the formatters variant's regex requires explicit counts
and drops the whole body of an omitted-count hunk, returning only the
header. -/
theorem C6_omitted_count_tracking (t c : Int) :
    (DiffCore.utilsScan DiffCore.pc6a t c).map (fun l => l.drop 1) =
      (DiffCore.utilsScan DiffCore.pc6b t c).map (fun l => l.drop 1) ∧
    DiffCore.fmtScan DiffCore.pc6a t c = some [DiffCore.h6a] := by
  constructor
  · have ha : DiffCore.splitlines DiffCore.pc6a =
        [DiffCore.h6a, DiffCore.lnX, DiffCore.lnY] := by decide
    have hb : DiffCore.splitlines DiffCore.pc6b =
        [DiffCore.h6b, DiffCore.lnX, DiffCore.lnY] := by decide
    have s1 : DiffCore.utilsStep t c ⟨none, []⟩ DiffCore.h6a =
        .next ⟨some 4, [DiffCore.h6a]⟩ :=
      DiffCore.utilsStep_hdr t c _ _ 4 (by decide) (by decide)
    have s2 : DiffCore.utilsStep t c ⟨none, []⟩ DiffCore.h6b =
        .next ⟨some 4, [DiffCore.h6b]⟩ :=
      DiffCore.utilsStep_hdr t c _ _ 4 (by decide) (by decide)
    unfold DiffCore.utilsScan
    rw [ha, hb, DiffCore.scanAux_cons_next _ _ _ _ _ s1,
        DiffCore.scanAux_cons_next _ _ _ _ _ s2,
        DiffCore.utilsScan_acc t c [DiffCore.lnX, DiffCore.lnY] (by decide)
          (some 4) [DiffCore.h6a],
        DiffCore.utilsScan_acc t c [DiffCore.lnX, DiffCore.lnY] (by decide)
          (some 4) [DiffCore.h6b]]
    cases DiffCore.scanAux (DiffCore.utilsStep t c)
        [DiffCore.lnX, DiffCore.lnY] ⟨some 4, []⟩ <;> simp
  · have ha : DiffCore.splitlines DiffCore.pc6a =
        [DiffCore.h6a, DiffCore.lnX, DiffCore.lnY] := by decide
    have s1 : DiffCore.fmtStep t c ⟨none, []⟩ DiffCore.h6a =
        .next ⟨none, [DiffCore.h6a]⟩ := by
      rw [DiffCore.fmtStep_hdr t c _ _ (by decide)]
      simp [show DiffCore.parseHeaderFmt DiffCore.h6a = none from by decide]
    have s2 : DiffCore.fmtStep t c ⟨none, [DiffCore.h6a]⟩ DiffCore.lnX =
        .next ⟨none, [DiffCore.h6a]⟩ :=
      DiffCore.fmtStep_skip t c [DiffCore.h6a] DiffCore.lnX (by decide)
    have s3 : DiffCore.fmtStep t c ⟨none, [DiffCore.h6a]⟩ DiffCore.lnY =
        .next ⟨none, [DiffCore.h6a]⟩ :=
      DiffCore.fmtStep_skip t c [DiffCore.h6a] DiffCore.lnY (by decide)
    unfold DiffCore.fmtScan
    rw [ha, DiffCore.scanAux_cons_next _ _ _ _ _ s1,
        DiffCore.scanAux_cons_next _ _ _ _ _ s2,
        DiffCore.scanAux_cons_next _ _ _ _ _ s3, DiffCore.scanAux_nil]

/-- C2 amended: when the target line lies beyond the hunk's new-file range
plus ctx (`2 + c < t`, e.g. target 999), both variants return a string
consisting of the hunk header line only — no body lines — rather than the
empty string; the result is empty only for a patch with no parsed hunk
header. -/
theorem C2_out_of_window (t c : Int) (h : 2 + c < t) :
    Utils.get_patch_context DiffCore.pc2 t c = some DiffCore.hdr12 ∧
    Formatters.get_patch_context DiffCore.pc2 t c = some DiffCore.hdr12 := by
  have hsplit : DiffCore.splitlines DiffCore.pc2 =
      [DiffCore.hdr12, DiffCore.lnA, DiffCore.lnB] := by decide
  constructor
  · have hw1 : ¬ |(0 : Int) + 1 - t| ≤ c := by rw [abs_le]; omega
    have hw2 : ¬ |(1 : Int) + 1 - t| ≤ c := by rw [abs_le]; omega
    have s1 : DiffCore.utilsStep t c ⟨none, []⟩ DiffCore.hdr12 =
        .next ⟨some 0, [DiffCore.hdr12]⟩ :=
      DiffCore.utilsStep_hdr t c _ _ 0 (by decide) (by decide)
    have hscan : DiffCore.utilsScan DiffCore.pc2 t c = some [DiffCore.hdr12] := by
      unfold DiffCore.utilsScan
      rw [hsplit, DiffCore.scanAux_cons_next _ _ _ _ _ s1]
      simp only [DiffCore.scanAux,
        DiffCore.utilsStep_ctxadd t c 0 [DiffCore.hdr12] DiffCore.lnA ' '
          (by decide) (by decide) (Or.inl rfl), if_neg hw1]
      by_cases hb1 : (0 : Int) + 1 > t + c
      · rw [if_pos hb1]
      · rw [if_neg hb1]
        norm_num only
        simp only [DiffCore.scanAux,
          DiffCore.utilsStep_ctxadd t c 1 [DiffCore.hdr12] DiffCore.lnB ' '
            (by decide) (by decide) (Or.inl rfl), if_neg hw2]
        by_cases hb2 : (1 : Int) + 1 > t + c
        · rw [if_pos hb2]
        · rw [if_neg hb2]
    unfold Utils.get_patch_context
    rw [hscan]
    decide
  · have hw1 : ¬ |(1 : Int) - t| ≤ c := by rw [abs_le]; omega
    have hw2 : ¬ |(2 : Int) - t| ≤ c := by rw [abs_le]; omega
    have f1 : DiffCore.fmtStep t c ⟨none, []⟩ DiffCore.hdr12 =
        .next ⟨some 1, [DiffCore.hdr12]⟩ := by
      rw [DiffCore.fmtStep_hdr t c _ _ (by decide)]
      simp [show DiffCore.parseHeaderFmt DiffCore.hdr12 = some 1 from by decide]
    have hscan : DiffCore.fmtScan DiffCore.pc2 t c = some [DiffCore.hdr12] := by
      unfold DiffCore.fmtScan
      rw [hsplit, DiffCore.scanAux_cons_next _ _ _ _ _ f1]
      simp only [DiffCore.scanAux,
        DiffCore.fmtStep_ctx t c 1 [DiffCore.hdr12] DiffCore.lnA
          (by decide) (by decide), if_neg hw1]
      by_cases hb1 : (1 : Int) + 1 > t + c
      · rw [if_pos hb1]
      · rw [if_neg hb1]
        norm_num only
        simp only [DiffCore.scanAux,
          DiffCore.fmtStep_ctx t c 2 [DiffCore.hdr12] DiffCore.lnB
            (by decide) (by decide), if_neg hw2]
        by_cases hb2 : (2 : Int) + 1 > t + c
        · rw [if_pos hb2]
        · rw [if_neg hb2]
    unfold Formatters.get_patch_context
    rw [hscan]
    decide

/-- C2 witness: the claim's own instance, target 999 with the default
ctx 3, both variants returning exactly the header line. -/
theorem C2_out_of_window_witness :
    Utils.get_patch_context DiffCore.pc2 999 3 = some DiffCore.hdr12 ∧
    Formatters.get_patch_context DiffCore.pc2 999 3 = some DiffCore.hdr12 :=
  C2_out_of_window 999 3 (by decide)

/-- C5 amended: on `@@ -1,3 +1,3 @@` with body ` a`, `-del`, ` b`, the
utils variant includes the deletion exactly when the un-incremented
cursor — the new-file number 1 of the most recently consumed
context/addition line — lies in the window, as the claim states; the
formatters variant instead tests the deletion against a cursor already
advanced one past the last consumed line (2 here), so its inclusion rule
is shifted by one.  With the default ctx 3 a deletion immediately before
the target is included by both. -/
theorem C5_deletion_window_rule (t c : Int) :
    (DiffCore.delLine ∈ (DiffCore.utilsScan DiffCore.pc5g t c).getD [] ↔
      |(1 : Int) - t| ≤ c) ∧
    (DiffCore.delLine ∈ (DiffCore.fmtScan DiffCore.pc5g t c).getD [] ↔
      |(2 : Int) - t| ≤ c) := by
  have hsplit : DiffCore.splitlines DiffCore.pc5g =
      [DiffCore.h13, DiffCore.lnA, DiffCore.delLine, DiffCore.lnB] := by decide
  have hn1 : ¬ (DiffCore.delLine = DiffCore.h13) := by decide
  have hn2 : ¬ (DiffCore.delLine = DiffCore.lnA) := by decide
  have hn3 : ¬ (DiffCore.delLine = DiffCore.lnB) := by decide
  constructor
  · have s1 : DiffCore.utilsStep t c ⟨none, []⟩ DiffCore.h13 =
        .next ⟨some 0, [DiffCore.h13]⟩ :=
      DiffCore.utilsStep_hdr t c _ _ 0 (by decide) (by decide)
    unfold DiffCore.utilsScan
    rw [hsplit, DiffCore.scanAux_cons_next _ _ _ _ _ s1]
    simp only [DiffCore.scanAux,
      DiffCore.utilsStep_ctxadd t c 0 [DiffCore.h13] DiffCore.lnA ' '
        (by decide) (by decide) (Or.inl rfl)]
    norm_num only
    by_cases hw1 : |(1 : Int) - t| ≤ c
    · have hb1 : ¬ ((1 : Int) > t + c) := by rw [abs_le] at hw1; omega
      rw [if_neg hb1, if_pos hw1]
      simp only [DiffCore.scanAux, List.cons_append, List.nil_append,
        DiffCore.utilsStep_del t c 1 [DiffCore.h13, DiffCore.lnA]
          DiffCore.delLine (by decide) (by decide)]
      rw [if_neg hb1, if_pos hw1]
      simp only [DiffCore.scanAux, List.cons_append, List.nil_append,
        DiffCore.utilsStep_ctxadd t c 1
          [DiffCore.h13, DiffCore.lnA, DiffCore.delLine] DiffCore.lnB ' '
          (by decide) (by decide) (Or.inl rfl)]
      norm_num only
      by_cases hb2 : (2 : Int) > t + c
      · rw [if_pos hb2]
        split_ifs with hw2 <;> simp [DiffCore.scanAux, hw1, hn1, hn2, hn3]
      · rw [if_neg hb2]
        split_ifs with hw2 <;> simp [DiffCore.scanAux, hw1, hn1, hn2, hn3]
    · rw [if_neg hw1]
      by_cases hb1 : (1 : Int) > t + c
      · rw [if_pos hb1]
        simp [DiffCore.scanAux, hw1, hn1]
      · rw [if_neg hb1]
        simp only [DiffCore.scanAux, List.cons_append, List.nil_append,
          DiffCore.utilsStep_del t c 1 [DiffCore.h13] DiffCore.delLine
            (by decide) (by decide)]
        rw [if_neg hb1, if_neg hw1]
        simp only [DiffCore.scanAux, List.cons_append, List.nil_append,
          DiffCore.utilsStep_ctxadd t c 1 [DiffCore.h13] DiffCore.lnB ' '
            (by decide) (by decide) (Or.inl rfl)]
        norm_num only
        by_cases hb2 : (2 : Int) > t + c
        · rw [if_pos hb2]
          split_ifs with hw2 <;> simp [DiffCore.scanAux, hw1, hn1, hn2, hn3]
        · rw [if_neg hb2]
          split_ifs with hw2 <;> simp [DiffCore.scanAux, hw1, hn1, hn2, hn3]
  · have f1 : DiffCore.fmtStep t c ⟨none, []⟩ DiffCore.h13 =
        .next ⟨some 1, [DiffCore.h13]⟩ := by
      rw [DiffCore.fmtStep_hdr t c _ _ (by decide)]
      simp [show DiffCore.parseHeaderFmt DiffCore.h13 = some 1 from by decide]
    unfold DiffCore.fmtScan
    rw [hsplit, DiffCore.scanAux_cons_next _ _ _ _ _ f1]
    simp only [DiffCore.scanAux,
      DiffCore.fmtStep_ctx t c 1 [DiffCore.h13] DiffCore.lnA
        (by decide) (by decide)]
    norm_num only
    by_cases hw2 : |(2 : Int) - t| ≤ c
    · have hfb1 : ¬ ((2 : Int) > t + c) := by rw [abs_le] at hw2; omega
      have hd2 : t - c ≤ 2 ∧ 2 ≤ t + c := by rw [abs_le] at hw2; omega
      rw [if_neg hfb1]
      by_cases hw1 : |(1 : Int) - t| ≤ c
      · rw [if_pos hw1]
        simp only [DiffCore.scanAux, List.cons_append, List.nil_append,
          DiffCore.fmtStep_del t c 2 [DiffCore.h13, DiffCore.lnA]
            DiffCore.delLine (by decide) (by decide)]
        rw [if_pos hd2]
        simp only [DiffCore.scanAux, List.cons_append, List.nil_append,
          DiffCore.fmtStep_ctx t c 2
            [DiffCore.h13, DiffCore.lnA, DiffCore.delLine] DiffCore.lnB
            (by decide) (by decide)]
        norm_num only
        rw [if_pos hw2]
        by_cases hb3 : (3 : Int) > t + c
        · rw [if_pos hb3]
          simp [DiffCore.scanAux, hw2, hn1, hn2, hn3]
        · rw [if_neg hb3]
          simp [DiffCore.scanAux, hw2, hn1, hn2, hn3]
      · rw [if_neg hw1]
        simp only [DiffCore.scanAux, List.cons_append, List.nil_append,
          DiffCore.fmtStep_del t c 2 [DiffCore.h13] DiffCore.delLine
            (by decide) (by decide)]
        rw [if_pos hd2]
        simp only [DiffCore.scanAux, List.cons_append, List.nil_append,
          DiffCore.fmtStep_ctx t c 2 [DiffCore.h13, DiffCore.delLine]
            DiffCore.lnB (by decide) (by decide)]
        norm_num only
        rw [if_pos hw2]
        by_cases hb3 : (3 : Int) > t + c
        · rw [if_pos hb3]
          simp [DiffCore.scanAux, hw2, hn1, hn2, hn3]
        · rw [if_neg hb3]
          simp [DiffCore.scanAux, hw2, hn1, hn2, hn3]
    · have hd2 : ¬ (t - c ≤ 2 ∧ 2 ≤ t + c) := by rw [abs_le] at hw2; omega
      by_cases hfb1 : (2 : Int) > t + c
      · rw [if_pos hfb1]
        split_ifs with hw1 <;> simp [DiffCore.scanAux, hw2, hn1, hn2, hn3]
      · rw [if_neg hfb1]
        by_cases hw1 : |(1 : Int) - t| ≤ c
        · rw [if_pos hw1]
          simp only [DiffCore.scanAux, List.cons_append, List.nil_append,
            DiffCore.fmtStep_del t c 2 [DiffCore.h13, DiffCore.lnA]
              DiffCore.delLine (by decide) (by decide)]
          rw [if_neg hd2]
          simp only [DiffCore.scanAux, List.cons_append, List.nil_append,
            DiffCore.fmtStep_ctx t c 2 [DiffCore.h13, DiffCore.lnA]
              DiffCore.lnB (by decide) (by decide)]
          norm_num only
          rw [if_neg hw2]
          by_cases hb3 : (3 : Int) > t + c
          · rw [if_pos hb3]
            simp [DiffCore.scanAux, hw2, hn1, hn2, hn3]
          · rw [if_neg hb3]
            simp [DiffCore.scanAux, hw2, hn1, hn2, hn3]
        · rw [if_neg hw1]
          simp only [DiffCore.scanAux, List.cons_append, List.nil_append,
            DiffCore.fmtStep_del t c 2 [DiffCore.h13] DiffCore.delLine
              (by decide) (by decide)]
          rw [if_neg hd2]
          simp only [DiffCore.scanAux, List.cons_append, List.nil_append,
            DiffCore.fmtStep_ctx t c 2 [DiffCore.h13] DiffCore.lnB
              (by decide) (by decide)]
          norm_num only
          rw [if_neg hw2]
          by_cases hb3 : (3 : Int) > t + c
          · rw [if_pos hb3]
            simp [DiffCore.scanAux, hw2, hn1, hn2, hn3]
          · rw [if_neg hb3]
            simp [DiffCore.scanAux, hw2, hn1, hn2, hn3]

/-- C9: a scan step of either variant on a non-header body line with an
active cursor never decreases the cursor: whenever the utils step
continues, and independently whenever the formatters step continues, the
successor cursor exists, is at least the old value, is unchanged on a
deletion line, and grows by exactly one on a context or addition line.
The two steps are hypothesized separately, so the formatters invariant
also covers the past-window addition and deletion steps on which the
utils variant would break instead. -/
theorem C9_cursor_monotone (t c fl : Int) (acc : List String) (l : String)
    (st2 st3 : DiffCore.ScanSt)
    (h0 : DiffCore.startsW l DiffCore.hdrPre = false) :
    (DiffCore.utilsStep t c ⟨some fl, acc⟩ l = DiffCore.StepOut.next st2 →
      ∃ a, st2.fileLine = some a ∧ fl ≤ a ∧
        (l.data.head? = some '-' → a = fl) ∧
        ((l.data.head? = some ' ' ∨ l.data.head? = some '+') → a = fl + 1)) ∧
    (DiffCore.fmtStep t c ⟨some fl, acc⟩ l = DiffCore.StepOut.next st3 →
      ∃ b, st3.fileLine = some b ∧ fl ≤ b ∧
        (l.data.head? = some '-' → b = fl) ∧
        ((l.data.head? = some ' ' ∨ l.data.head? = some '+') → b = fl + 1)) := by
  constructor
  · intro h2
    cases hch : l.data.head? with
    | none =>
      simp [DiffCore.utilsStep, h0, hch] at h2
    | some ch =>
      by_cases hsp : ch = ' '
      · subst hsp
        rw [DiffCore.utilsStep_ctxadd t c fl acc l ' ' h0 hch (Or.inl rfl)] at h2
        split_ifs at h2
        all_goals cases h2
        all_goals
          exact ⟨fl + 1, rfl, by omega,
            fun hd => absurd (Option.some.inj hd) (by decide),
            fun _ => rfl⟩
      · by_cases hpl : ch = '+'
        · subst hpl
          rw [DiffCore.utilsStep_ctxadd t c fl acc l '+' h0 hch (Or.inr rfl)] at h2
          split_ifs at h2
          all_goals cases h2
          all_goals
            exact ⟨fl + 1, rfl, by omega,
              fun hd => absurd (Option.some.inj hd) (by decide),
              fun _ => rfl⟩
        · by_cases hmn : ch = '-'
          · subst hmn
            rw [DiffCore.utilsStep_del t c fl acc l h0 hch] at h2
            split_ifs at h2
            all_goals cases h2
            all_goals
              exact ⟨fl, rfl, le_refl fl, fun _ => rfl,
                fun hd => hd.elim
                  (fun h => absurd (Option.some.inj h) (by decide))
                  (fun h => absurd (Option.some.inj h) (by decide))⟩
          · have hset : ¬ (ch = ' ' ∨ ch = '+' ∨ ch = '-') := by tauto
            have e2 : DiffCore.utilsStep t c ⟨some fl, acc⟩ l =
                .next ⟨some fl, acc⟩ := by
              simp [DiffCore.utilsStep, h0, hch, hset]
            rw [e2] at h2
            cases h2
            exact ⟨fl, rfl, le_refl fl,
              fun hd => absurd (Option.some.inj hd) hmn,
              fun hd => hd.elim
                (fun h => absurd (Option.some.inj h) hsp)
                (fun h => absurd (Option.some.inj h) hpl)⟩
  · intro h3
    cases hch : l.data.head? with
    | none =>
      simp [DiffCore.fmtStep, h0, hch] at h3
    | some ch =>
      by_cases hsp : ch = ' '
      · subst hsp
        rw [DiffCore.fmtStep_ctx t c fl acc l h0 hch] at h3
        split_ifs at h3
        all_goals cases h3
        all_goals
          exact ⟨fl + 1, rfl, by omega,
            fun hd => absurd (Option.some.inj hd) (by decide),
            fun _ => rfl⟩
      · by_cases hpl : ch = '+'
        · subst hpl
          rw [DiffCore.fmtStep_add t c fl acc l h0 hch] at h3
          split_ifs at h3
          all_goals cases h3
          all_goals
            exact ⟨fl + 1, rfl, by omega,
              fun hd => absurd (Option.some.inj hd) (by decide),
              fun _ => rfl⟩
        · by_cases hmn : ch = '-'
          · subst hmn
            rw [DiffCore.fmtStep_del t c fl acc l h0 hch] at h3
            split_ifs at h3
            all_goals cases h3
            all_goals
              exact ⟨fl, rfl, le_refl fl, fun _ => rfl,
                fun hd => hd.elim
                  (fun h => absurd (Option.some.inj h) (by decide))
                  (fun h => absurd (Option.some.inj h) (by decide))⟩
          · rw [DiffCore.fmtStep_other t c fl acc l ch h0 hch hsp hpl hmn] at h3
            split_ifs at h3
            all_goals cases h3
            all_goals
              exact ⟨fl, rfl, le_refl fl,
                fun hd => absurd (Option.some.inj hd) hmn,
                fun hd => hd.elim
                  (fun h => absurd (Option.some.inj h) hsp)
                  (fun h => absurd (Option.some.inj h) hpl)⟩

/-- C9 witness: the utils step is exercised on the deletion line `-x` at
cursor 5 with target 5 and ctx 3 (it continues with the cursor unchanged);
the formatters step is exercised on the same deletion line at cursor 5
with target 1 and ctx 0 — past the window, where the utils variant would
break but the formatters variant continues, again with the cursor
unchanged. -/
theorem C9_cursor_monotone_witness :
    (∃ a, (⟨some 5, [DiffCore.lnDX]⟩ : DiffCore.ScanSt).fileLine = some a ∧
        (5 : Int) ≤ a ∧
        (DiffCore.lnDX.data.head? = some '-' → a = 5) ∧
        ((DiffCore.lnDX.data.head? = some ' ' ∨
          DiffCore.lnDX.data.head? = some '+') → a = 5 + 1)) ∧
    (∃ b, (⟨some 5, ([] : List String)⟩ : DiffCore.ScanSt).fileLine = some b ∧
        (5 : Int) ≤ b ∧
        (DiffCore.lnDX.data.head? = some '-' → b = 5) ∧
        ((DiffCore.lnDX.data.head? = some ' ' ∨
          DiffCore.lnDX.data.head? = some '+') → b = 5 + 1)) :=
  ⟨(C9_cursor_monotone 5 3 5 [] DiffCore.lnDX ⟨some 5, [DiffCore.lnDX]⟩
      ⟨some 5, [DiffCore.lnDX]⟩ (by decide)).1 (by decide),
   (C9_cursor_monotone 1 0 5 [] DiffCore.lnDX ⟨none, []⟩
      ⟨some 5, []⟩ (by decide)).2 (by decide)⟩
namespace DiffCore

theorem utilsTotal (t c : Int) :
    ∀ (L : List String) (seen : Bool) (fl : Option Int) (acc : List String),
      safeLines L seen = true → (fl.isSome = true → seen = true) →
      (scanAux (utilsStep t c) L ⟨fl, acc⟩).isSome = true := by
  intro L
  induction L with
  | nil => intro seen fl acc _ _; simp [scanAux]
  | cons l L2 ih =>
    intro seen fl acc hsafe hinv
    by_cases hh : startsW l hdrPre = true
    · simp only [safeLines, hh, if_true, Bool.and_eq_true] at hsafe
      obtain ⟨hp, hs2⟩ := hsafe
      obtain ⟨s, hsv⟩ := Option.isSome_iff_exists.mp hp
      rw [scanAux_cons_next _ _ _ _ _ (utilsStep_hdr t c ⟨fl, acc⟩ l s hh hsv)]
      exact ih true (some s) [l] hs2 (fun _ => rfl)
    · have hh2 : startsW l hdrPre = false := by simpa using hh
      simp only [safeLines, hh2, Bool.false_eq_true, if_false,
        Bool.and_eq_true] at hsafe
      obtain ⟨hne, hs2⟩ := hsafe
      cases fl with
      | none =>
        rw [scanAux_cons_next _ _ _ _ _ (utilsStep_skip t c acc l hh2)]
        exact ih seen none acc hs2 hinv
      | some v =>
        have hseen : seen = true := hinv (by simp)
        subst hseen
        have hhd : (l.data.head?).isSome = true := by simpa using hne
        obtain ⟨ch, hch⟩ := Option.isSome_iff_exists.mp hhd
        by_cases hset : ch = ' ' ∨ ch = '+' ∨ ch = '-'
        · have hca : (ch = ' ' ∨ ch = '+') ∨ ch = '-' := by tauto
          rcases hca with hca | hca
          · simp only [scanAux, utilsStep_ctxadd t c v acc l ch hh2 hch hca]
            split_ifs with hB hw hw
            · simp
            · simp
            · exact ih true (some (v + 1)) (acc ++ [l]) hs2 (fun _ => rfl)
            · exact ih true (some (v + 1)) acc hs2 (fun _ => rfl)
          · subst hca
            simp only [scanAux, utilsStep_del t c v acc l hh2 hch]
            split_ifs with hB hw hw
            · simp
            · simp
            · exact ih true (some v) (acc ++ [l]) hs2 (fun _ => rfl)
            · exact ih true (some v) acc hs2 (fun _ => rfl)
        · have e : utilsStep t c ⟨some v, acc⟩ l = .next ⟨some v, acc⟩ := by
            simp [utilsStep, hh2, hch, hset]
          rw [scanAux_cons_next _ _ _ _ _ e]
          exact ih true (some v) acc hs2 (fun _ => rfl)

theorem fmtTotal (t c : Int) :
    ∀ (L : List String) (seen : Bool) (fl : Option Int) (acc : List String),
      safeLines L seen = true → (fl.isSome = true → seen = true) →
      (scanAux (fmtStep t c) L ⟨fl, acc⟩).isSome = true := by
  intro L
  induction L with
  | nil => intro seen fl acc _ _; simp [scanAux]
  | cons l L2 ih =>
    intro seen fl acc hsafe hinv
    by_cases hh : startsW l hdrPre = true
    · simp only [safeLines, hh, if_true, Bool.and_eq_true] at hsafe
      obtain ⟨_, hs2⟩ := hsafe
      rw [scanAux_cons_next _ _ _ _ _ (fmtStep_hdr t c ⟨fl, acc⟩ l hh)]
      exact ih true (parseHeaderFmt l) (acc ++ [l]) hs2 (fun _ => rfl)
    · have hh2 : startsW l hdrPre = false := by simpa using hh
      simp only [safeLines, hh2, Bool.false_eq_true, if_false,
        Bool.and_eq_true] at hsafe
      obtain ⟨hne, hs2⟩ := hsafe
      cases fl with
      | none =>
        rw [scanAux_cons_next _ _ _ _ _ (fmtStep_skip t c acc l hh2)]
        exact ih seen none acc hs2 hinv
      | some v =>
        have hseen : seen = true := hinv (by simp)
        subst hseen
        have hhd : (l.data.head?).isSome = true := by simpa using hne
        obtain ⟨ch, hch⟩ := Option.isSome_iff_exists.mp hhd
        by_cases hsp : ch = ' '
        · subst hsp
          simp only [scanAux, fmtStep_ctx t c v acc l hh2 hch]
          split_ifs with hB hw hw
          · simp
          · simp
          · exact ih true (some (v + 1)) (acc ++ [l]) hs2 (fun _ => rfl)
          · exact ih true (some (v + 1)) acc hs2 (fun _ => rfl)
        · by_cases hpl : ch = '+'
          · subst hpl
            simp only [scanAux, fmtStep_add t c v acc l hh2 hch]
            split_ifs with hw
            · exact ih true (some (v + 1)) (acc ++ [l]) hs2 (fun _ => rfl)
            · exact ih true (some (v + 1)) acc hs2 (fun _ => rfl)
          · by_cases hmn : ch = '-'
            · subst hmn
              simp only [scanAux, fmtStep_del t c v acc l hh2 hch]
              split_ifs with hw
              · exact ih true (some v) (acc ++ [l]) hs2 (fun _ => rfl)
              · exact ih true (some v) acc hs2 (fun _ => rfl)
            · simp only [scanAux, fmtStep_other t c v acc l ch hh2 hch hsp hpl hmn]
              split_ifs with hB
              · simp
              · exact ih true (some v) acc hs2 (fun _ => rfl)

end DiffCore

/-- C10: on every patch whose hunk headers all parse and whose lines after
the first header are non-empty, both `get_patch_context` variants return
a string (no exception); the non-emptiness is necessary — on the patch
`@@ -1,1 +1,1 @@` followed by an empty line, both variants reach `line[0]`
on an empty string and raise (modelled `none`). -/
theorem C10_totality :
    (∀ (patch : String) (t c : Int),
      DiffCore.safeLines (DiffCore.splitlines patch) false = true →
      (Utils.get_patch_context patch t c).isSome = true ∧
      (Formatters.get_patch_context patch t c).isSome = true) ∧
    (Utils.get_patch_context DiffCore.pc10 1 3 = none ∧
     Formatters.get_patch_context DiffCore.pc10 1 3 = none) := by
  constructor
  · intro patch t c hsafe
    constructor
    · have h1 : (DiffCore.utilsScan patch t c).isSome = true :=
        DiffCore.utilsTotal t c (DiffCore.splitlines patch) false none []
          hsafe (fun h => by simp at h)
      obtain ⟨r, hr⟩ := Option.isSome_iff_exists.mp h1
      unfold Utils.get_patch_context
      rw [hr]
      rfl
    · have h1 : (DiffCore.fmtScan patch t c).isSome = true :=
        DiffCore.fmtTotal t c (DiffCore.splitlines patch) false none []
          hsafe (fun h => by simp at h)
      obtain ⟨r, hr⟩ := Option.isSome_iff_exists.mp h1
      unfold Formatters.get_patch_context
      rw [hr]
      rfl
  · exact ⟨by decide, by decide⟩

/-- C10 witness: the well-formed patch `@@ -1,2 +1,2 @@` with body ` a`,
`+b` satisfies the safety predicate and both variants return a value. -/
theorem C10_totality_witness :
    (Utils.get_patch_context DiffCore.pcW 1 3).isSome = true ∧
    (Formatters.get_patch_context DiffCore.pcW 1 3).isSome = true :=
  C10_totality.1 DiffCore.pcW 1 3 (by decide)

/-- C7 amended: the core functions perform no input validation: an empty
patch yields the normal value `""` (not an error) for every target line
and ctx, and a non-positive target line is processed like any other line
number — on a well-formed patch both variants still return a value
rather than failing. -/
theorem C7_no_validation :
    (∀ (t c : Int),
      Utils.get_patch_context DiffCore.emptyS t c = some DiffCore.emptyS ∧
      Formatters.get_patch_context DiffCore.emptyS t c = some DiffCore.emptyS) ∧
    (∀ (t c : Int), t ≤ 0 →
      (Utils.get_patch_context DiffCore.pcW t c).isSome = true ∧
      (Formatters.get_patch_context DiffCore.pcW t c).isSome = true) := by
  constructor
  · intro t c
    exact ⟨rfl, rfl⟩
  · intro t c _
    constructor
    · have h1 : (DiffCore.utilsScan DiffCore.pcW t c).isSome = true :=
        DiffCore.utilsTotal t c (DiffCore.splitlines DiffCore.pcW) false none []
          (by decide) (fun h => by simp at h)
      obtain ⟨r, hr⟩ := Option.isSome_iff_exists.mp h1
      unfold Utils.get_patch_context
      rw [hr]
      rfl
    · have h1 : (DiffCore.fmtScan DiffCore.pcW t c).isSome = true :=
        DiffCore.fmtTotal t c (DiffCore.splitlines DiffCore.pcW) false none []
          (by decide) (fun h => by simp at h)
      obtain ⟨r, hr⟩ := Option.isSome_iff_exists.mp h1
      unfold Formatters.get_patch_context
      rw [hr]
      rfl

/-- C7 witness: target 0 (non-positive) with the empty patch and with a
well-formed patch; both variants return normal values. -/
theorem C7_no_validation_witness :
    (Utils.get_patch_context DiffCore.emptyS 0 3 = some DiffCore.emptyS ∧
     Formatters.get_patch_context DiffCore.emptyS 0 3 = some DiffCore.emptyS) ∧
    ((Utils.get_patch_context DiffCore.pcW 0 3).isSome = true ∧
     (Formatters.get_patch_context DiffCore.pcW 0 3).isSome = true) :=
  ⟨C7_no_validation.1 0 3, C7_no_validation.2 0 3 (by decide)⟩

namespace DiffCore

theorem hunksOf_nil : hunksOf [] = [] := by
  rw [hunksOf.eq_def]

theorem hunksOf_cons (l : String) (R : List String) :
    hunksOf (l :: R) =
      (if startsW l hdrPre then
        (parseHeaderSpec l, R.takeWhile (fun x => !startsW x hdrPre)) ::
          hunksOf (R.dropWhile (fun x => !startsW x hdrPre))
      else hunksOf R) := by
  rw [hunksOf.eq_def]

theorem findIdxO_append (p : α → Bool) :
    ∀ (A B : List α),
      findIdxO p (A ++ B) =
        (match findIdxO p A with
         | some i => some i
         | none => (findIdxO p B).map (fun j => j + A.length)) := by
  intro A
  induction A with
  | nil =>
    intro B
    cases h : findIdxO p B <;> simp [findIdxO, h]
  | cons a A2 ih =>
    intro B
    by_cases hp : p a = true
    · simp [findIdxO, hp]
    · simp only [List.cons_append, findIdxO, hp, Bool.false_eq_true, if_false,
        List.append_eq]
      rw [ih B]
      cases h2 : findIdxO p A2
      all_goals cases h3 : findIdxO p B
      all_goals simp [h2, h3, List.length_cons]
      all_goals omega

theorem takeWhileMem (p : α → Bool) :
    ∀ (l : List α) (x : α), x ∈ l.takeWhile p → p x = true := by
  intro l
  induction l with
  | nil => intro x hx; simp [List.takeWhile] at hx
  | cons a l2 ih =>
    intro x hx
    rw [List.takeWhile_cons] at hx
    by_cases hp : p a = true
    · rw [if_pos hp] at hx
      rcases List.mem_cons.mp hx with hx | hx
      · subst hx; exact hp
      · exact ih x hx
    · rw [if_neg hp] at hx
      simp at hx

theorem dropWhileHead (p : α → Bool) :
    ∀ (l : List α) (d : α) (R : List α), l.dropWhile p = d :: R → p d = false := by
  intro l
  induction l with
  | nil => intro d R h; simp [List.dropWhile] at h
  | cons a l2 ih =>
    intro d R h
    rw [List.dropWhile_cons] at h
    by_cases hp : p a = true
    · rw [if_pos hp] at h
      exact ih d R h
    · rw [if_neg hp] at h
      cases h
      simpa using hp

theorem resolveGo_skip (t : Int) :
    ∀ (L : List String), (∀ l ∈ L, startsW l hdrPre = false) →
    ∀ (R : List String) (pos : Nat),
      resolveGo t (L ++ R) none pos = resolveGo t R none pos := by
  intro L
  induction L with
  | nil => intro _ R pos; simp
  | cons l L2 ih =>
    intro hL R pos
    have hl : startsW l hdrPre = false := hL l (List.mem_cons_self l L2)
    simp only [List.cons_append, resolveGo, hl, Bool.false_eq_true, if_false]
    exact ih (fun x hx => hL x (List.mem_cons_of_mem l hx)) R pos

theorem resolveGo_hdrCur (t : Int) (d : String) (R : List String)
    (cur : Option Int) (pos : Nat) (hd : startsW d hdrPre = true) :
    resolveGo t (d :: R) cur pos = resolveGo t (d :: R) none pos := by
  simp only [resolveGo, hd, if_true]

end DiffCore

namespace DiffCore

theorem resolveGo_hunk (t : Int) :
    ∀ (L : List String), (∀ l ∈ L, startsW l hdrPre = false) →
    ∀ (ns : Int) (pos : Nat) (R : List String),
      resolveGo t (L ++ R) (some (ns - 1)) pos =
        (match findIdxO (tgtHit t) (hunkStream ns L) with
         | some i => some (pos + i)
         | none => resolveGo t R (some (ns - 1 + (ctxAddCount L : Int)))
             (pos + (hunkStream ns L).length)) := by
  intro L
  induction L with
  | nil =>
    intro _ ns pos R
    simp [hunkStream, findIdxO, ctxAddCount]
  | cons l L2 ih =>
    intro hL ns pos R
    have hl : startsW l hdrPre = false := hL l (List.mem_cons_self l L2)
    have hL2 : ∀ x ∈ L2, startsW x hdrPre = false :=
      fun x hx => hL x (List.mem_cons_of_mem l hx)
    simp only [List.cons_append, resolveGo, hl, Bool.false_eq_true, if_false,
      hunkStream, List.append_eq]
    by_cases hca : l.data.head? = some ' ' ∨ l.data.head? = some '+'
    · rw [if_pos hca, if_pos hca]
      by_cases heq : ns = t
      · have h1 : (ns - 1) + 1 = t := by omega
        rw [if_pos h1]
        have htg : tgtHit t (l, some ns) = true := by simp [tgtHit, heq]
        simp [findIdxO, htg]
      · have h1 : ¬ ((ns - 1) + 1 = t) := by omega
        rw [if_neg h1]
        have htg : tgtHit t (l, some ns) = false := by simp [tgtHit, heq]
        rw [show (ns - 1) + 1 = (ns + 1) - 1 from by omega]
        rw [ih hL2 (ns + 1) (pos + 1) R]
        simp only [findIdxO, htg, Bool.false_eq_true, if_false]
        have hcnt : (ctxAddCount (l :: L2) : Int) = (ctxAddCount L2 : Int) + 1 := by
          simp [ctxAddCount, List.countP_cons, hca]
        cases hfi : findIdxO (tgtHit t) (hunkStream (ns + 1) L2) with
        | some i =>
          simp only [hfi, Option.map_some']
          simp only [Option.some.injEq]
          omega
        | none =>
          simp only [hfi, Option.map_none']
          rw [show (ns + 1) - 1 + (ctxAddCount L2 : Int) =
              ns - 1 + (ctxAddCount (l :: L2) : Int) from by rw [hcnt]; omega]
          rw [show (pos + 1) + (hunkStream (ns + 1) L2).length =
              pos + ((l, some ns) :: hunkStream (ns + 1) L2).length from by
            simp [List.length_cons]; omega]
    · rw [if_neg hca, if_neg hca]
      by_cases hmn : l.data.head? = some '-'
      · rw [if_pos hmn, if_pos hmn]
        rw [ih hL2 ns (pos + 1) R]
        have htg : tgtHit t (l, none) = false := by simp [tgtHit]
        simp only [findIdxO, htg, Bool.false_eq_true, if_false]
        have hcnt : (ctxAddCount (l :: L2) : Int) = (ctxAddCount L2 : Int) := by
          simp [ctxAddCount, List.countP_cons, hca]
        cases hfi : findIdxO (tgtHit t) (hunkStream ns L2) with
        | some i =>
          simp only [hfi, Option.map_some']
          simp only [Option.some.injEq]
          omega
        | none =>
          simp only [hfi, Option.map_none']
          rw [show ns - 1 + (ctxAddCount L2 : Int) =
              ns - 1 + (ctxAddCount (l :: L2) : Int) from by rw [hcnt]]
          rw [show (pos + 1) + (hunkStream ns L2).length =
              pos + ((l, none) :: hunkStream ns L2).length from by
            simp [List.length_cons]; omega]
      · rw [if_neg hmn, if_neg hmn]
        have hcnt : (ctxAddCount (l :: L2) : Int) = (ctxAddCount L2 : Int) := by
          simp [ctxAddCount, List.countP_cons, hca, hmn]
        rw [ih hL2 ns pos R, hcnt]

end DiffCore

namespace DiffCore

theorem resolveAll (t : Int) :
    ∀ (n : Nat) (L : List String), L.length < n → ∀ (pos : Nat) (cur : Option Int),
      (cur = none ∨ L = [] ∨ (∃ d R2, L = d :: R2 ∧ startsW d hdrPre = true)) →
      resolveGo t L cur pos =
        (match findIdxO (tgtHit t) (refStream (hunksOf L)) with
         | some i => some (pos + i)
         | none => none) := by
  intro n
  induction n with
  | zero => intro L h; exact absurd h (Nat.not_lt_zero _)
  | succ n ih =>
    intro L hlen pos cur halign
    cases L with
    | nil => simp [resolveGo, hunksOf_nil, refStream, findIdxO]
    | cons l R =>
      by_cases hh : startsW l hdrPre = true
      · have hTD : R.takeWhile (fun x => !startsW x hdrPre) ++
            R.dropWhile (fun x => !startsW x hdrPre) = R :=
          List.takeWhile_append_dropWhile (fun x => !startsW x hdrPre) R
        have hTnh : ∀ x ∈ R.takeWhile (fun x => !startsW x hdrPre),
            startsW x hdrPre = false := by
          intro x hx
          have := takeWhileMem _ R x hx
          simpa using this
        have hDlen : (R.dropWhile (fun x => !startsW x hdrPre)).length < n := by
          have h1 : (R.dropWhile (fun x => !startsW x hdrPre)).length ≤ R.length :=
            (List.dropWhile_sublist _).length_le
          simp only [List.length_cons] at hlen
          omega
        rw [hunksOf_cons, if_pos hh]
        cases hp : parseHeaderSpec l with
        | some ns =>
          have hstep : resolveGo t (l :: R) cur pos =
              resolveGo t R (some (ns - 1)) pos := by
            simp only [resolveGo, hh, if_true, hp]
          rw [hstep]
          conv_lhs => rw [← hTD]
          rw [resolveGo_hunk t _ hTnh ns pos _]
          simp only [refStream]
          rw [findIdxO_append]
          cases hfi : findIdxO (tgtHit t)
              (hunkStream ns (R.takeWhile (fun x => !startsW x hdrPre))) with
          | some i => simp [hfi]
          | none =>
            simp only [hfi]
            cases hD : R.dropWhile (fun x => !startsW x hdrPre) with
            | nil =>
              simp [resolveGo, hunksOf_nil, refStream, findIdxO]
            | cons d R2 =>
              have hd : startsW d hdrPre = true := by
                have := dropWhileHead _ R d R2 hD
                simpa using this
              rw [resolveGo_hdrCur t d R2 _ _ hd]
              rw [ih (d :: R2) (hD ▸ hDlen) _ none (Or.inl rfl)]
              cases hfj : findIdxO (tgtHit t) (refStream (hunksOf (d :: R2))) with
              | some j =>
                simp only [hfj, Option.map_some', Option.some.injEq]
                omega
              | none => simp [hfj]
        | none =>
          have hstep : resolveGo t (l :: R) cur pos = resolveGo t R none pos := by
            simp only [resolveGo, hh, if_true, hp]
          rw [hstep]
          conv_lhs => rw [← hTD]
          rw [resolveGo_skip t _ hTnh _ pos]
          simp only [refStream]
          exact ih _ hDlen pos none (Or.inl rfl)
      · have hcur : cur = none := by
          rcases halign with h | h | ⟨d, R2, heq, hhd⟩
          · exact h
          · exact absurd h (by simp)
          · injection heq with h1 h2
            rw [← h1] at hhd
            exact absurd hhd hh
        subst hcur
        have hh2 : startsW l hdrPre = false := by simpa using hh
        have hstep : resolveGo t (l :: R) none pos = resolveGo t R none pos := by
          simp only [resolveGo, hh2, Bool.false_eq_true, if_false]
        rw [hstep, hunksOf_cons, if_neg (by simp [hh2])]
        have hRlen : R.length < n := by
          simp only [List.length_cons] at hlen
          omega
        exact ih R hRlen pos none (Or.inl rfl)

end DiffCore

/-- C1: the spec's resolvePosition — absent from the sources and modelled
from the spec's section 4.3 algorithm — computes, for every patch and
target line, exactly the 0-based index of the first context/addition
body line carrying the target new-file number within the flattened
stream of all hunk body lines (headers excluded, deletions occupying one
slot each, malformed hunks absent), and `none` when no hunk covers the
target; in particular on `@@ -5,2 +5,2 @@` with `-old`, `+new` and
target 5 it returns 1. -/
theorem C1_resolvePosition_correct :
    (∀ (patch : String) (t : Int),
      DiffCore.resolvePosition patch t = DiffCore.refPosition patch t) ∧
    DiffCore.resolvePosition DiffCore.pc1 5 = some 1 := by
  constructor
  · intro patch t
    unfold DiffCore.resolvePosition DiffCore.refPosition
    rw [DiffCore.resolveAll t ((DiffCore.splitlines patch).length + 1)
      (DiffCore.splitlines patch) (Nat.lt_succ_self _) 0 none (Or.inl rfl)]
    cases h : DiffCore.findIdxO (DiffCore.tgtHit t)
        (DiffCore.refStream (DiffCore.hunksOf (DiffCore.splitlines patch))) with
    | some i => simp [h]
    | none => simp [h]
  · decide
